import Mathlib

/-!
Verification of the incremental image-regeneration decision engine of a
static-site build pipeline.  The engine exists in three generations in the
repository:

* the timestamp-based script (`deploy-support/scripts/01-process-images.mjs`,
  "deploy script" below): walks `public_html`, compares each source image's
  mtime against its eleven expected build outputs, regenerates when an output
  is missing or the source is strictly newer;
* the git-based script ("git script" below): asks git for changed files,
  falls back to processing everything when git fails, and self-heals by
  checking the ten resized variants for existence;
* the legacy script (`scripts/01-process-images.mjs`): sharpens originals in
  place and filters files with slightly weaker skip rules.

Paths are modelled as strings, Node's `path` helpers as functions on the
underlying character lists, and the filesystem as a partial map from paths to
modification times.  Timestamps are natural numbers (milliseconds since the
epoch, as returned by `stats.mtime.getTime()`).
-/

namespace PortfolioBuild

/-! ## String helpers mirroring the JavaScript string API -/

/-- Boolean infix test on character lists (used for JavaScript `includes`). -/
def listInfix (pat : List Char) : List Char → Bool
  | [] => pat.isEmpty
  | c :: t => pat.isPrefixOf (c :: t) || listInfix pat t

/-- JavaScript `s.startsWith(pat)`. -/
def jsStartsWith (s pat : String) : Bool :=
  pat.data.isPrefixOf s.data

/-- JavaScript `s.endsWith(pat)`. -/
def jsEndsWith (s pat : String) : Bool :=
  pat.data.isSuffixOf s.data

/-- JavaScript `s.includes(pat)`. -/
def jsIncludes (s pat : String) : Bool :=
  listInfix pat.data s.data

/-- JavaScript `s.toLowerCase()` for the ASCII range used by filenames. -/
def lowerStr (s : String) : String :=
  ⟨s.data.map Char.toLower⟩

/-- Core of JavaScript `replace` with a string pattern: rewrites the first
occurrence of `pat` (non-empty at every call site) to `repl`. -/
def replaceFirstAux (pat repl : List Char) : List Char → List Char
  | [] => []
  | c :: t =>
    if pat.isPrefixOf (c :: t) then repl ++ (c :: t).drop pat.length
    else c :: replaceFirstAux pat repl t

/-- JavaScript `s.replace(pat, repl)` with a string pattern: replaces only the
first occurrence of `pat`. -/
def jsReplaceFirst (s pat repl : String) : String :=
  ⟨replaceFirstAux pat.data repl.data s.data⟩

/-- Core of JavaScript `s.split(pat)[0]`: the prefix before the first
occurrence of `pat`, the whole string when `pat` is absent. -/
def beforeFirstAux (pat : List Char) : List Char → List Char
  | [] => []
  | c :: t => if pat.isPrefixOf (c :: t) then [] else c :: beforeFirstAux pat t

/-- JavaScript `s.split(pat)[0]`. -/
def jsSplitHead (s pat : String) : String :=
  ⟨beforeFirstAux pat.data s.data⟩

/-- Core of the regex rewrite `s.replace(/.*pat/, "")`: the suffix after the
last occurrence of `pat`, found by preferring matches that start later. -/
def afterLastAux (pat : List Char) : List Char → Option (List Char)
  | [] => none
  | c :: t =>
    match afterLastAux pat t with
    | some r => some r
    | none => if pat.isPrefixOf (c :: t) then some ((c :: t).drop pat.length) else none

/-- JavaScript `s.replace(/.*pat/, "")` for a literal `pat`: drops everything
up to the end of the last occurrence of `pat`, `s` unchanged when absent. -/
def jsDropThroughLast (s pat : String) : String :=
  match afterLastAux pat.data s.data with
  | some r => ⟨r⟩
  | none => s

/-! ## Node `path` helpers (POSIX)

The build scripts only ever hand these helpers slash-separated relative or
absolute paths without trailing slashes, so the embedding implements the
behaviour of `path.basename`, `path.extname`, `path.dirname`, `path.join` and
`path.relative` on that domain. -/

/-- Node `path.basename(p)`: the part of the path after the last slash. -/
def pathBasename (p : String) : String :=
  ⟨(p.data.reverse.takeWhile (· ≠ '/')).reverse⟩

/-- Node `path.dirname(p)`: the path up to (excluding) the last slash, `"."`
when there is no slash. -/
def pathDirname (p : String) : String :=
  match p.data.reverse.dropWhile (· ≠ '/') with
  | [] => "."
  | _ :: tl => if tl = [] then "/" else ⟨tl.reverse⟩

/-- Node `path.extname(p)`: the suffix of the basename from its last dot,
empty when the basename has no dot or only a leading dot. -/
def pathExtname (p : String) : String :=
  let b := (pathBasename p).data
  let pre := b.reverse.takeWhile (· ≠ '.')
  if pre.length = b.length then ""
  else if pre.length + 1 = b.length then ""
  else ⟨'.' :: pre.reverse⟩

/-- Node `path.basename(p, ext)`: the basename with the suffix `ext` removed
when it is a proper suffix. -/
def pathBasenameNoExt (p ext : String) : String :=
  let b := pathBasename p
  if ext ≠ b ∧ jsEndsWith b ext then ⟨b.data.take (b.data.length - ext.data.length)⟩
  else b

/-- Node `path.join(a, b)` for already-normalized segments. -/
def pathJoin (a b : String) : String :=
  if a = "" then b
  else if b = "" then a
  else a ++ "/" ++ b

/-- Node `path.relative(base, p)` for the only case the scripts exercise: `p`
lies beneath the directory `base`. -/
def pathRelative (base p : String) : String :=
  if jsStartsWith p (base ++ "/") then ⟨p.data.drop (base.data.length + 1)⟩
  else p

/-! ## Filesystem model -/

/-- A filesystem snapshot: each path either exists with a modification time or
is absent.  `stats.mtime.getTime()` of an existing file is its recorded
time. -/
structure FS where
  mtime : String → Option Nat

/-- `getFileTime` of the deploy script: the mtime of the file, `0` when `stat`
fails because the file does not exist. -/
def getFileTime (fs : FS) (p : String) : Nat :=
  match fs.mtime p with
  | none => 0
  | some t => t

/-- `fileExists` of the deploy script (`fs.access` succeeding). -/
def fileExists (fs : FS) (p : String) : Bool :=
  (fs.mtime p).isSome

/-! ## Deploy script: artifact naming and the staleness oracle -/

/-- Widths of the responsive variants (`SIZES` in all three scripts). -/
def SIZES : List Nat := [320, 640, 960, 1200, 1800]

/-- `getBuildOutputPaths` of the deploy script: the eleven expected build
outputs of one source image — the sharpened original plus a webp and a
native-format file per responsive width. -/
def getBuildOutputPaths (sourceImagePath buildRoot : String) : List String :=
  let relativePath := pathRelative "public_html" sourceImagePath
  let buildDir := pathJoin (pathJoin buildRoot "temp/public_html") (pathDirname relativePath)
  let baseName := pathBasenameNoExt sourceImagePath (pathExtname sourceImagePath)
  let ext := pathExtname sourceImagePath
  pathJoin buildDir (baseName ++ "-original" ++ ext) ::
    SIZES.flatMap (fun size =>
      [pathJoin buildDir (baseName ++ "-" ++ toString size ++ "w.webp"),
       pathJoin buildDir (baseName ++ "-" ++ toString size ++ "w" ++ ext)])

/-- The output-scanning loop of `needsProcessing`: walks the expected outputs
keeping the oldest mtime seen so far (`none` plays the initial `Infinity`);
returns `none` the moment an output's time is `0`, mirroring the early
`return true` on a missing output. -/
def minOutputTime (fs : FS) : List String → Option Nat → Option (Option Nat)
  | [], acc => some acc
  | p :: ps, acc =>
    if getFileTime fs p = 0 then none
    else
      minOutputTime fs ps
        (some (match acc with
               | none => getFileTime fs p
               | some m => if getFileTime fs p < m then getFileTime fs p else m))

/-- Verdict of the staleness comparison for a source mtime `srcT` against an
expected output list: stale on a missing output, otherwise stale exactly when
`srcT` is strictly greater than the oldest output time. -/
def staleVerdict (fs : FS) (srcT : Nat) (ps : List String) : Bool :=
  match minOutputTime fs ps none with
  | none => true
  | some none => false
  | some (some oldest) => decide (srcT > oldest)

/-- `needsProcessing` of the deploy script: stale when an expected output is
missing, or when the source's mtime is strictly greater than the oldest
output's mtime. -/
def needsProcessing (fs : FS) (sourceImagePath buildRoot : String) : Bool :=
  staleVerdict fs (getFileTime fs sourceImagePath)
    (getBuildOutputPaths sourceImagePath buildRoot)

/-- Minimum of a list of timestamps (the oldest artifact time of a non-empty
expected set). -/
def minimumTime : List Nat → Nat
  | [] => 0
  | t :: ts => ts.foldl min t

/-! ## Lemmas about the staleness oracle -/

theorem ite_lt_eq_min (a b : Nat) : (if a < b then a else b) = min a b := by
  split <;> omega

theorem minOutputTime_eq_none_iff (fs : FS) (ps : List String) (acc : Option Nat) :
    minOutputTime fs ps acc = none ↔ ∃ p ∈ ps, getFileTime fs p = 0 := by
  induction ps generalizing acc with
  | nil => simp [minOutputTime]
  | cons p ps ih =>
    by_cases h : getFileTime fs p = 0
    · simp [minOutputTime, h]
    · simp [minOutputTime, h, ih]

theorem minOutputTime_eq_some (fs : FS) (ps : List String) (m : Nat)
    (h : ∀ p ∈ ps, getFileTime fs p ≠ 0) :
    minOutputTime fs ps (some m) =
      some (some (ps.foldl (fun a q => min a (getFileTime fs q)) m)) := by
  induction ps generalizing m with
  | nil => simp [minOutputTime]
  | cons p ps ih =>
    have hp : getFileTime fs p ≠ 0 := h p (List.mem_cons_self p ps)
    have hrest : ∀ q ∈ ps, getFileTime fs q ≠ 0 := fun q hq => h q (List.mem_cons_of_mem p hq)
    simp only [minOutputTime, hp, if_false, List.foldl_cons]
    rw [ite_lt_eq_min, Nat.min_comm]
    exact ih (min m (getFileTime fs p)) hrest

theorem le_foldl_min_iff (fs : FS) (x m : Nat) (ps : List String) :
    x ≤ ps.foldl (fun a q => min a (getFileTime fs q)) m ↔
      x ≤ m ∧ ∀ q ∈ ps, x ≤ getFileTime fs q := by
  induction ps generalizing m with
  | nil => simp
  | cons p ps ih =>
    simp only [List.foldl_cons, ih, Nat.le_min, List.mem_cons]
    constructor
    · rintro ⟨⟨h1, h2⟩, h3⟩
      exact ⟨h1, fun q hq => hq.elim (fun e => e ▸ h2) (h3 q)⟩
    · rintro ⟨h1, h2⟩
      exact ⟨⟨h1, h2 p (Or.inl rfl)⟩, fun q hq => h2 q (Or.inr hq)⟩

theorem getBuildOutputPaths_ne_nil (src buildRoot : String) :
    getBuildOutputPaths src buildRoot ≠ [] := by
  simp [getBuildOutputPaths]

/-- Characterization of a fresh verdict: all expected outputs have a non-zero
recorded time and none is older than the source. -/
theorem staleVerdict_eq_false_iff (fs : FS) (srcT : Nat) (ps : List String) :
    staleVerdict fs srcT ps = false ↔
      ∀ p ∈ ps, getFileTime fs p ≠ 0 ∧ srcT ≤ getFileTime fs p := by
  by_cases hmiss : ∃ p ∈ ps, getFileTime fs p = 0
  · have hnone : minOutputTime fs ps none = none :=
      (minOutputTime_eq_none_iff fs ps none).mpr hmiss
    obtain ⟨p, hp, hp0⟩ := hmiss
    simp only [staleVerdict, hnone]
    constructor
    · intro h; cases h
    · intro h
      exact absurd hp0 (h p hp).1
  · push_neg at hmiss
    cases ps with
    | nil => simp [staleVerdict, minOutputTime]
    | cons o rest =>
      have ho : getFileTime fs o ≠ 0 := hmiss o (List.mem_cons_self o rest)
      have hrest : ∀ q ∈ rest, getFileTime fs q ≠ 0 :=
        fun q hq => hmiss q (List.mem_cons_of_mem o hq)
      have hchar : (∀ p ∈ o :: rest, getFileTime fs p ≠ 0 ∧ srcT ≤ getFileTime fs p) ↔
          (srcT ≤ getFileTime fs o ∧ ∀ q ∈ rest, srcT ≤ getFileTime fs q) := by
        constructor
        · intro h
          exact ⟨(h o (List.mem_cons_self o rest)).2,
                 fun q hq => (h q (List.mem_cons_of_mem o hq)).2⟩
        · rintro ⟨h1, h2⟩ p hp
          rcases List.mem_cons.mp hp with he | hm
          · exact ⟨he ▸ ho, he ▸ h1⟩
          · exact ⟨hrest p hm, h2 p hm⟩
      rw [hchar, ← le_foldl_min_iff fs srcT (getFileTime fs o) rest]
      simp only [staleVerdict, minOutputTime, ho, if_false,
        minOutputTime_eq_some fs rest (getFileTime fs o) hrest]
      constructor
      · intro h
        have := of_decide_eq_false h
        omega
      · intro h
        simp only [decide_eq_false_iff_not]
        omega

theorem needsProcessing_eq_false_iff (fs : FS) (src buildRoot : String) :
    needsProcessing fs src buildRoot = false ↔
      ∀ p ∈ getBuildOutputPaths src buildRoot,
        getFileTime fs p ≠ 0 ∧ getFileTime fs src ≤ getFileTime fs p :=
  staleVerdict_eq_false_iff fs (getFileTime fs src) (getBuildOutputPaths src buildRoot)

theorem staleVerdict_eq_true_of_missing (fs : FS) (srcT : Nat) (ps : List String)
    (p : String) (hp : p ∈ ps) (h0 : getFileTime fs p = 0) :
    staleVerdict fs srcT ps = true := by
  have hnone : minOutputTime fs ps none = none :=
    (minOutputTime_eq_none_iff fs ps none).mpr ⟨p, hp, h0⟩
  simp [staleVerdict, hnone]

theorem needsProcessing_eq_true_of_missing (fs : FS) (src buildRoot p : String)
    (hp : p ∈ getBuildOutputPaths src buildRoot) (h0 : getFileTime fs p = 0) :
    needsProcessing fs src buildRoot = true :=
  staleVerdict_eq_true_of_missing fs (getFileTime fs src) _ p hp h0

theorem le_foldl_min_nat (x m : Nat) (ts : List Nat) :
    x ≤ ts.foldl min m ↔ x ≤ m ∧ ∀ t ∈ ts, x ≤ t := by
  induction ts generalizing m with
  | nil => simp
  | cons t ts ih =>
    simp only [List.foldl_cons, ih, Nat.le_min, List.mem_cons]
    constructor
    · rintro ⟨⟨h1, h2⟩, h3⟩
      exact ⟨h1, fun q hq => hq.elim (fun e => e ▸ h2) (h3 q)⟩
    · rintro ⟨h1, h2⟩
      exact ⟨⟨h1, h2 t (Or.inl rfl)⟩, fun q hq => h2 q (Or.inr hq)⟩

theorem le_minimumTime_iff (x t0 : Nat) (ts : List Nat) :
    x ≤ minimumTime (t0 :: ts) ↔ ∀ t ∈ t0 :: ts, x ≤ t := by
  simp only [minimumTime, le_foldl_min_nat, List.mem_cons]
  constructor
  · rintro ⟨h1, h2⟩ t ht
    exact ht.elim (fun e => e ▸ h1) (h2 t)
  · intro h
    exact ⟨h t0 (Or.inl rfl), fun t ht => h t (Or.inr ht)⟩

/-- With every existing file's mtime positive (files postdate the epoch), a
zero `getFileTime` means exactly that the file is absent. -/
theorem getFileTime_eq_zero_iff (fs : FS) (hpos : ∀ p t, fs.mtime p = some t → 0 < t)
    (p : String) : getFileTime fs p = 0 ↔ fs.mtime p = none := by
  cases hm : fs.mtime p with
  | none => simp [getFileTime, hm]
  | some t =>
    have ht := hpos p t hm
    simp only [getFileTime, hm]
    constructor
    · intro h; omega
    · intro h; cases h

/-- C1: for every source image (its expected artifact set is always the
non-empty eleven-path list), `needsProcessing` returns stale exactly when some
expected output is absent or the source's mtime strictly exceeds the minimum
mtime over the expected outputs; when every output exists and the source's
mtime equals the oldest output's mtime, the verdict is fresh. -/
theorem C1_staleness_oracle (fs : FS) (src buildRoot : String)
    (hpos : ∀ p t, fs.mtime p = some t → 0 < t) :
    (needsProcessing fs src buildRoot = true ↔
      (∃ p ∈ getBuildOutputPaths src buildRoot, fs.mtime p = none) ∨
        minimumTime ((getBuildOutputPaths src buildRoot).map (getFileTime fs)) <
          getFileTime fs src) ∧
    ((∀ p ∈ getBuildOutputPaths src buildRoot, fs.mtime p ≠ none) →
      getFileTime fs src =
        minimumTime ((getBuildOutputPaths src buildRoot).map (getFileTime fs)) →
      needsProcessing fs src buildRoot = false) := by
  obtain ⟨o, rest, houts⟩ : ∃ o rest, getBuildOutputPaths src buildRoot = o :: rest :=
    ⟨_, _, rfl⟩
  have hmt := getFileTime_eq_zero_iff fs hpos
  simp only [needsProcessing, houts]
  constructor
  · constructor
    · intro htrue
      by_contra hrhs
      push_neg at hrhs
      obtain ⟨hnomiss, hmin⟩ := hrhs
      have hfresh : staleVerdict fs (getFileTime fs src) (o :: rest) = false := by
        rw [staleVerdict_eq_false_iff]
        intro p hp
        have h0 : getFileTime fs p ≠ 0 := fun h => hnomiss p hp ((hmt p).mp h)
        refine ⟨h0, ?_⟩
        have hle : getFileTime fs src ≤
            minimumTime ((o :: rest).map (getFileTime fs)) := hmin
        rw [List.map_cons] at hle
        exact (le_minimumTime_iff _ _ _).mp hle (getFileTime fs p)
          (by rw [← List.map_cons]; exact List.mem_map_of_mem _ hp)
      rw [hfresh] at htrue
      cases htrue
    · intro hrhs
      rcases hrhs with ⟨p, hp, hnone⟩ | hmin
      · exact staleVerdict_eq_true_of_missing fs _ _ p hp ((hmt p).mpr hnone)
      · cases hv : staleVerdict fs (getFileTime fs src) (o :: rest) with
        | true => rfl
        | false =>
          exfalso
          have hall := (staleVerdict_eq_false_iff fs _ _).mp hv
          have hle : getFileTime fs src ≤
              minimumTime ((o :: rest).map (getFileTime fs)) := by
            rw [List.map_cons]
            rw [le_minimumTime_iff]
            intro t ht
            rw [← List.map_cons] at ht
            obtain ⟨p, hp, hpt⟩ := List.mem_map.mp ht
            exact hpt ▸ (hall p hp).2
          exact absurd hmin (Nat.not_lt.mpr hle)
  · intro hex heq
    rw [staleVerdict_eq_false_iff]
    intro p hp
    refine ⟨fun h => hex p hp ((hmt p).mp h), ?_⟩
    rw [heq, List.map_cons]
    exact (le_minimumTime_iff _ _ _).mp (Nat.le_refl _) (getFileTime fs p)
      (by rw [← List.map_cons]; exact List.mem_map_of_mem _ hp)

/-- Filesystem in which every path exists with mtime 1. -/
def fsAllOne : FS := ⟨fun _ => some 1⟩

/-- Witness for C1: in a filesystem where every file exists with mtime 1, a
source whose mtime equals the oldest output mtime is reported fresh. -/
theorem C1_staleness_oracle_witness :
    needsProcessing fsAllOne "public_html/assets/images/hero.png" "build" = false :=
  (C1_staleness_oracle fsAllOne "public_html/assets/images/hero.png" "build"
      (fun p t h => by have h2 := Option.some.inj h; omega)).2
    (fun p _ => by simp [fsAllOne])
    (by decide)

/-! ## Git script: change detection, self-healing and processing -/

/-- Module-level path constants of the git script: the working directory, the
source image tree `workingDir/public_html/assets/images` and the build image
tree `buildDir/public_html/assets/images`. -/
structure GitConfig where
  workingDir : String
  sourceImagesDir : String
  buildImagesDir : String

/-- Extension filter the git script applies to changed files reported by git
(`/\.(png|jpg|jpeg|webp)$/i`). -/
def gitChangedImageExt (file : String) : Bool :=
  jsEndsWith (lowerStr file) ".png" || jsEndsWith (lowerStr file) ".jpg" ||
    jsEndsWith (lowerStr file) ".jpeg" || jsEndsWith (lowerStr file) ".webp"

/-- `getChangedImages` of the git script.  The three `git diff` subprocess
invocations are abstracted to the file lists they report (`Except.error` when
the subprocess throws).  `none` plays the script's `null`, meaning "process
all images". -/
def getChangedImages (forceAll : Bool)
    (gitOutcome : Except String (List String × List String × List String)) :
    Option (List String) :=
  if forceAll then none
  else
    match gitOutcome with
    | .error _ => none
    | .ok (unstaged, staged, lastCommit) =>
      let allChangedFiles := (unstaged ++ staged ++ lastCommit).dedup
      if allChangedFiles.isEmpty then some []
      else
        some ((allChangedFiles.filter
            (fun f => jsStartsWith f "public_html/assets/images/")).filter
          gitChangedImageExt)

/-- `needsProcessing` of the git script: process when in force mode or when
git detection failed, when git reports the file changed, or when one of the
ten resized variants (webp and png per width — the png name is hard-coded) is
missing from the build tree. -/
def needsProcessingGit (cfg : GitConfig) (fs : FS) (forceAll : Bool)
    (changedImages : Option (List String)) (imagePath : String) : Bool :=
  let relativePath := pathRelative cfg.workingDir imagePath
  if forceAll then true
  else
    match changedImages with
    | none => true
    | some changed =>
      if changed.contains relativePath then true
      else
        let imageDir :=
          pathDirname (jsReplaceFirst imagePath cfg.sourceImagesDir cfg.buildImagesDir)
        let baseName := pathBasenameNoExt imagePath (pathExtname imagePath)
        SIZES.any (fun size =>
          !fileExists fs (pathJoin imageDir (baseName ++ "-" ++ toString size ++ "w.webp")) ||
            !fileExists fs (pathJoin imageDir (baseName ++ "-" ++ toString size ++ "w.png")))

/-- The ten resized-variant paths `processImage` of the git script writes (the
same paths its `needsProcessing` checks for existence). -/
def gitVariantPaths (cfg : GitConfig) (imagePath : String) : List String :=
  let imageDir :=
    pathDirname (jsReplaceFirst imagePath cfg.sourceImagesDir cfg.buildImagesDir)
  let baseName := pathBasenameNoExt imagePath (pathExtname imagePath)
  SIZES.flatMap (fun size =>
    [pathJoin imageDir (baseName ++ "-" ++ toString size ++ "w.webp"),
     pathJoin imageDir (baseName ++ "-" ++ toString size ++ "w.png")])

/-- The full artifact set `processImage` of the git script writes: the
sharpened original copy (same basename, in the build tree) plus the ten
resized variants. -/
def gitArtifactPaths (cfg : GitConfig) (imagePath : String) : List String :=
  pathJoin (pathDirname (jsReplaceFirst imagePath cfg.sourceImagesDir cfg.buildImagesDir))
      (pathBasename imagePath) :: gitVariantPaths cfg imagePath

theorem fileExists_eq_false_iff (fs : FS) (p : String) :
    fileExists fs p = false ↔ fs.mtime p = none := by
  cases hm : fs.mtime p <;> simp [fileExists, hm]

/-- For a source git reports unchanged (and no force mode), the git script
processes it exactly when one of the ten resized variants is missing. -/
theorem needsProcessingGit_unchanged_iff (cfg : GitConfig) (fs : FS)
    (changed : List String) (imagePath : String)
    (h : changed.contains (pathRelative cfg.workingDir imagePath) = false) :
    needsProcessingGit cfg fs false (some changed) imagePath = true ↔
      ∃ p ∈ gitVariantPaths cfg imagePath, fs.mtime p = none := by
  simp only [needsProcessingGit, gitVariantPaths, h, Bool.false_eq_true, if_false,
    List.any_eq_true, List.mem_flatMap, Bool.or_eq_true, Bool.not_eq_true',
    fileExists_eq_false_iff]
  constructor
  · rintro ⟨size, hs, hmiss | hmiss⟩
    · exact ⟨_, ⟨size, hs, by simp⟩, hmiss⟩
    · exact ⟨_, ⟨size, hs, by simp⟩, hmiss⟩
  · rintro ⟨p, ⟨size, hs, hp⟩, hmiss⟩
    rcases List.mem_cons.mp hp with he | hp2
    · exact ⟨size, hs, Or.inl (he ▸ hmiss)⟩
    · rcases List.mem_cons.mp hp2 with he | hp3
      · exact ⟨size, hs, Or.inr (he ▸ hmiss)⟩
      · cases hp3

/-- C2 (amended): for a non-skipped source that the VCS strategy reports
unchanged (not in the changed list, no force mode), the git script reprocesses
it exactly when one of the ten resized-variant artifacts is missing on disk —
the sharpened-original copy is not checked by its self-healing pass — while
the timestamp-based deploy script reprocesses a source whenever any of its
eleven expected outputs is missing. -/
theorem C2_self_healing (cfg : GitConfig) (fs : FS) (changed : List String)
    (imagePath src buildRoot : String)
    (h : changed.contains (pathRelative cfg.workingDir imagePath) = false) :
    (needsProcessingGit cfg fs false (some changed) imagePath = true ↔
      ∃ p ∈ gitVariantPaths cfg imagePath, fs.mtime p = none) ∧
    (∀ p ∈ getBuildOutputPaths src buildRoot, fs.mtime p = none →
      needsProcessing fs src buildRoot = true) := by
  refine ⟨needsProcessingGit_unchanged_iff cfg fs changed imagePath h, ?_⟩
  intro p hp hnone
  exact needsProcessing_eq_true_of_missing fs src buildRoot p hp
    (by simp [getFileTime, hnone])

/-- Git-script path constants for a project rooted at `/w`. -/
def c2Cfg : GitConfig :=
  ⟨"/w", "/w/public_html/assets/images", "/w/build/temp/public_html/assets/images"⟩

/-- Filesystem in which only the sharpened-original artifact of `a.png` is
missing; everything else exists with mtime 1. -/
def c2Fs : FS :=
  ⟨fun p => if p = "/w/build/temp/public_html/assets/images/a.png" then none else some 1⟩

/-- C2 counterexample: the sharpened-original copy belongs to the artifact set
the git script regenerates, yet with exactly that artifact deleted (and git
reporting no change) the git script does not reprocess the source. -/
theorem C2_self_healing_cex :
    "/w/build/temp/public_html/assets/images/a.png" ∈
        gitArtifactPaths c2Cfg "/w/public_html/assets/images/a.png" ∧
      c2Fs.mtime "/w/build/temp/public_html/assets/images/a.png" = none ∧
      needsProcessingGit c2Cfg c2Fs false (some [])
        "/w/public_html/assets/images/a.png" = false := by
  decide

/-- Filesystem in which one resized variant of `a.png` is missing. -/
def c2wFs : FS :=
  ⟨fun p => if p = "/w/build/temp/public_html/assets/images/a-640w.webp" then none
            else some 1⟩

/-- Witness for C2: deleting one resized variant of an otherwise-fresh,
VCS-unchanged source makes the git script reprocess it. -/
theorem C2_self_healing_witness :
    needsProcessingGit c2Cfg c2wFs false (some [])
      "/w/public_html/assets/images/a.png" = true :=
  (C2_self_healing c2Cfg c2wFs [] "/w/public_html/assets/images/a.png" "s" "b"
      (by decide)).1.mpr (by decide)

/-- Selection phase of the git script's `processImages`: the images kept for
processing out of all discovered source images. -/
def gitImagesToProcess (cfg : GitConfig) (fs : FS) (forceAll : Bool)
    (changedImages : Option (List String)) (allImages : List String) : List String :=
  allImages.filter (needsProcessingGit cfg fs forceAll changedImages)

/-- C3: when the git subprocess fails, `getChangedImages` degrades to "all
sources are candidates": every discovered source is selected for processing,
and both the selected list and the artifact set it generates coincide with
what a `--force-all` run would produce. -/
theorem C3_vcs_fail_open (cfg : GitConfig) (fs : FS) (e : String)
    (g : Except String (List String × List String × List String))
    (allImages : List String) :
    getChangedImages false (.error e) = none ∧
    gitImagesToProcess cfg fs false (getChangedImages false (.error e)) allImages =
      allImages ∧
    gitImagesToProcess cfg fs false (getChangedImages false (.error e)) allImages =
      gitImagesToProcess cfg fs true (getChangedImages true g) allImages ∧
    (gitImagesToProcess cfg fs false (getChangedImages false (.error e))
          allImages).flatMap (gitArtifactPaths cfg) =
      (gitImagesToProcess cfg fs true (getChangedImages true g) allImages).flatMap
        (gitArtifactPaths cfg) := by
  have h1 : getChangedImages false (Except.error e) = none := rfl
  have h2 : getChangedImages true g = none := rfl
  have hall : gitImagesToProcess cfg fs false none allImages = allImages :=
    List.filter_eq_self.mpr (fun a _ => rfl)
  have hall2 : gitImagesToProcess cfg fs true none allImages = allImages :=
    List.filter_eq_self.mpr (fun a _ => rfl)
  rw [h1, h2, hall, hall2]
  exact ⟨rfl, rfl, rfl, rfl⟩

/-! ## Artifact naming scheme (C4) -/

/-- Build directory the deploy script mirrors a source file into
(`buildDir` in `getBuildOutputPaths`). -/
def deployBuildDir (src buildRoot : String) : String :=
  pathJoin (pathJoin buildRoot "temp/public_html")
    (pathDirname (pathRelative "public_html" src))

/-- The eleven artifact paths exactly as the spec's filesystem contract words
them, for a build directory `dir`, stem `base` and dotted extension `ext`:
`base-original ext`, plus `base-{W}w.webp` and `base-{W}w ext` per width. -/
def specArtifactPaths (dir base ext : String) : List String :=
  pathJoin dir (base ++ "-original" ++ ext) ::
    SIZES.flatMap (fun w =>
      [pathJoin dir (base ++ "-" ++ toString w ++ "w.webp"),
       pathJoin dir (base ++ "-" ++ toString w ++ "w" ++ ext)])

/-- C4 (amended): the deploy script's expected artifact set is exactly the
spec's deterministic eleven-path set over (stem, width, format) — it is a pure
function of the source path and build root.  (The git script's produced set
deviates: see the counterexample.) -/
theorem C4_naming_scheme (src buildRoot : String) :
    getBuildOutputPaths src buildRoot =
      specArtifactPaths (deployBuildDir src buildRoot)
        (pathBasenameNoExt src (pathExtname src)) (pathExtname src) ∧
    (getBuildOutputPaths src buildRoot).length = 11 := by
  constructor
  · rfl
  · simp [getBuildOutputPaths, SIZES]

/-- C4 counterexample: on a `.jpg` source the git script's produced artifact
set is not the claimed eleven-path set — it writes a `-320w.png` file that the
claimed set lacks, and never writes the claimed `-original.jpg` file. -/
theorem C4_naming_scheme_cex :
    "/w/build/temp/public_html/assets/images/b-320w.png" ∈
        gitArtifactPaths c2Cfg "/w/public_html/assets/images/b.jpg" ∧
      "/w/build/temp/public_html/assets/images/b-320w.png" ∉
        specArtifactPaths "/w/build/temp/public_html/assets/images" "b" ".jpg" ∧
      "/w/build/temp/public_html/assets/images/b-original.jpg" ∈
        specArtifactPaths "/w/build/temp/public_html/assets/images" "b" ".jpg" ∧
      "/w/build/temp/public_html/assets/images/b-original.jpg" ∉
        gitArtifactPaths c2Cfg "/w/public_html/assets/images/b.jpg" := by
  decide

/-! ## Resize width model (C6) -/

/-- Pixel width the image library's resize stage produces for a requested
target width: with the `withoutEnlargement` option the target is capped at
the source width (the library's documented resize contract), without it the
library scales up to the requested width. -/
def sharpOutputWidth (sourceWidth targetWidth : Nat) (withoutEnlargement : Bool) : Nat :=
  if withoutEnlargement ∧ sourceWidth < targetWidth then sourceWidth else targetWidth

/-- Width of a resized variant written by the git script's `processImage`,
which resizes with `withoutEnlargement` set to true. -/
def gitVariantWidth (sourceWidth size : Nat) : Nat :=
  sharpOutputWidth sourceWidth size true

/-- Width of a resized variant written by the deploy script's
`processImageVariant`, which calls the resize stage with only the width and no
options. -/
def deployVariantWidth (sourceWidth width : Nat) : Nat :=
  sharpOutputWidth sourceWidth width false

/-- C6 (amended): the git script's resized variants never exceed the source's
own pixel width nor the requested width — a request of 1800 on an 800px-wide
source yields 800px.  (The deploy script's `processImageVariant` lacks the
cap: see the counterexample.) -/
theorem C6_no_upscaling (sourceWidth w : Nat) :
    gitVariantWidth sourceWidth w ≤ sourceWidth ∧
      gitVariantWidth sourceWidth w ≤ w ∧
      gitVariantWidth 800 1800 = 800 := by
  have hw : gitVariantWidth sourceWidth w = if sourceWidth < w then sourceWidth else w := by
    simp [gitVariantWidth, sharpOutputWidth]
  refine ⟨?_, ?_, by decide⟩ <;> rw [hw] <;> split <;> omega

/-- C6 counterexample: the deploy script's variant processor upscales — a
requested width of 1800 on an 800px-wide source produces a 1800px-wide file. -/
theorem C6_no_upscaling_cex :
    deployVariantWidth 800 1800 = 1800 ∧ 800 < 1800 := by decide

/-! ## Skip predicates (C7) -/

/-- `shouldSkipFile` of the deploy script: favicon-family prefixes, any
filename containing `safari-pinned-tab`, the two web-manifest files, and the
`.svg`/`.gif` extensions. -/
def shouldSkipFile (filePath : String) : Bool :=
  let filename := pathBasename filePath
  if jsStartsWith filename "favicon" || jsStartsWith filename "apple-touch-icon" ||
      jsStartsWith filename "android-chrome" || jsStartsWith filename "mstile" ||
      jsIncludes filename "safari-pinned-tab" || filename == "browserconfig.xml" ||
      filename == "site.webmanifest" then
    true
  else
    lowerStr (pathExtname filename) == ".svg" || lowerStr (pathExtname filename) == ".gif"

/-- `shouldSkipFile` of the legacy script: same favicon-family prefixes but
an exact-name comparison against `safari-pinned-tab.svg`, then the
`.gif`/`.svg` extensions. -/
def shouldSkipFileLegacy (filePath : String) : Bool :=
  let filename := pathBasename filePath
  if jsStartsWith filename "favicon" || jsStartsWith filename "apple-touch-icon" ||
      jsStartsWith filename "android-chrome" || jsStartsWith filename "mstile" ||
      filename == "safari-pinned-tab.svg" then
    true
  else
    lowerStr (pathExtname filePath) == ".gif" || lowerStr (pathExtname filePath) == ".svg"

/-- The exclusion predicate exactly as the claim words it: filename starting
with one of the five icon prefixes, or extension `.svg`/`.gif`. -/
def specExcludedFilename (filePath : String) : Bool :=
  let filename := pathBasename filePath
  jsStartsWith filename "favicon" || jsStartsWith filename "apple-touch-icon" ||
    jsStartsWith filename "android-chrome" || jsStartsWith filename "mstile" ||
    jsStartsWith filename "safari-pinned-tab" ||
    lowerStr (pathExtname filename) == ".svg" || lowerStr (pathExtname filename) == ".gif"

theorem isPrefixOf_listInfix (pat l : List Char) (h : pat.isPrefixOf l = true) :
    listInfix pat l = true := by
  cases l with
  | nil =>
    cases pat with
    | nil => rfl
    | cons c t => simp [List.isPrefixOf] at h
  | cons c t => simp [listInfix, h]

theorem shouldSkipFile_of_specExcluded (p : String)
    (h : specExcludedFilename p = true) : shouldSkipFile p = true := by
  simp only [specExcludedFilename, Bool.or_eq_true, beq_iff_eq] at h
  simp only [shouldSkipFile]
  rcases h with ((((((h | h) | h) | h) | h) | h) | h)
  · simp [h]
  · simp [h]
  · simp [h]
  · simp [h]
  · have hinc : jsIncludes (pathBasename p) "safari-pinned-tab" = true :=
      isPrefixOf_listInfix _ _ h
    simp [hinc]
  · by_cases hc : (jsStartsWith (pathBasename p) "favicon" ||
        jsStartsWith (pathBasename p) "apple-touch-icon" ||
        jsStartsWith (pathBasename p) "android-chrome" ||
        jsStartsWith (pathBasename p) "mstile" ||
        jsIncludes (pathBasename p) "safari-pinned-tab" ||
        pathBasename p == "browserconfig.xml" ||
        pathBasename p == "site.webmanifest") = true <;> simp [hc, h]
  · by_cases hc : (jsStartsWith (pathBasename p) "favicon" ||
        jsStartsWith (pathBasename p) "apple-touch-icon" ||
        jsStartsWith (pathBasename p) "android-chrome" ||
        jsStartsWith (pathBasename p) "mstile" ||
        jsIncludes (pathBasename p) "safari-pinned-tab" ||
        pathBasename p == "browserconfig.xml" ||
        pathBasename p == "site.webmanifest") = true <;> simp [hc, h]

/-! ## Deploy orchestrator -/

/-- Build-tree mirror copy of the source image (`buildImagePath` in
`processImageSet`). -/
def buildImagePath (src buildRoot : String) : String :=
  pathJoin (pathJoin buildRoot "temp/public_html") (pathRelative "public_html" src)

/-- All paths `processImageSet` writes for one source, in write order: the
mirrored copy of the source plus the eleven derived outputs. -/
def writtenPaths (src buildRoot : String) : List String :=
  buildImagePath src buildRoot :: getBuildOutputPaths src buildRoot

/-- Effect of one generation pass on the filesystem: each artifact write is
attempted in order; a failing write (`fails p`; the error is caught and
logged inside the variant processor) leaves the filesystem unchanged, a
successful one records write time `τ p` at `p`. -/
def generateArtifacts (fails : String → Bool) (τ : String → Nat) :
    List String → FS → FS
  | [], fs => fs
  | p :: ps, fs =>
    if fails p then generateArtifacts fails τ ps fs
    else generateArtifacts fails τ ps ⟨fun q => if q = p then some (τ p) else fs.mtime q⟩

/-- The per-source loop of the deploy orchestrator
(`processSourceDirectory` handing each image to `processSourceImage`):
skip-listed files return before the staleness check and the counters; stale
sources run the generator and count as processed, also on partial failure;
fresh sources count as skipped. -/
def runEngine (buildRoot : String) (τ : String → Nat) (fails : String → Bool) :
    List String → FS × Nat × Nat → FS × Nat × Nat
  | [], st => st
  | src :: rest, (fs, processed, skipped) =>
    if shouldSkipFile src then runEngine buildRoot τ fails rest (fs, processed, skipped)
    else if needsProcessing fs src buildRoot then
      runEngine buildRoot τ fails rest
        (generateArtifacts fails τ (writtenPaths src buildRoot) fs, processed + 1, skipped)
    else runEngine buildRoot τ fails rest (fs, processed, skipped + 1)

theorem generateArtifacts_mtime (fails : String → Bool) (τ : String → Nat)
    (ps : List String) (fs : FS) (p : String) :
    (generateArtifacts fails τ ps fs).mtime p =
      if p ∈ ps ∧ fails p = false then some (τ p) else fs.mtime p := by
  induction ps generalizing fs with
  | nil => simp [generateArtifacts]
  | cons q ps ih =>
    by_cases hf : fails q = true
    · rw [show generateArtifacts fails τ (q :: ps) fs = generateArtifacts fails τ ps fs
          from by simp [generateArtifacts, hf]]
      rw [ih]
      by_cases hpq : p = q
      · subst hpq
        simp [hf]
      · simp [List.mem_cons, hpq]
    · rw [show generateArtifacts fails τ (q :: ps) fs =
          generateArtifacts fails τ ps ⟨fun r => if r = q then some (τ q) else fs.mtime r⟩
          from by simp [generateArtifacts, hf]]
      rw [ih]
      by_cases hpq : p = q
      · subst hpq
        by_cases hps : p ∈ ps <;> simp [hf, hps]
      · simp [List.mem_cons, hpq]

theorem runEngine_excluded (buildRoot : String) (τ : String → Nat)
    (fails : String → Bool) :
    ∀ (sources : List String) (fs : FS) (pr sk : Nat),
      (∀ p ∈ sources, shouldSkipFile p = true) →
      runEngine buildRoot τ fails sources (fs, pr, sk) = (fs, pr, sk)
  | [], _, _, _, _ => rfl
  | s :: rest, fs, pr, sk, h => by
    have hs : shouldSkipFile s = true := h s (List.mem_cons_self s rest)
    rw [show runEngine buildRoot τ fails (s :: rest) (fs, pr, sk) =
        runEngine buildRoot τ fails rest (fs, pr, sk) from by simp [runEngine, hs]]
    exact runEngine_excluded buildRoot τ fails rest fs pr sk
      (fun p hp => h p (List.mem_cons_of_mem s hp))

/-! ## Walker matchers for previously generated outputs -/

/-- Image-file pattern of the walkers (`/\.(png|jpe?g|webp)$/i`). -/
def imagePatternTest (file : String) : Bool :=
  jsEndsWith (lowerStr file) ".png" || jsEndsWith (lowerStr file) ".jpg" ||
    jsEndsWith (lowerStr file) ".jpeg" || jsEndsWith (lowerStr file) ".webp"

/-- Matcher for `\\d+w` at the head of a character list: one or more digits
followed by `w`.  (A backtracking `\\d+` is equivalent to maximal munch here
because `w` is not a digit.) -/
def startsDigitsThenW (cs : List Char) : Bool :=
  match cs with
  | c :: _ =>
    c.isDigit &&
      (match List.dropWhile Char.isDigit cs with
       | c2 :: _ => c2 == 'w'
       | [] => false)
  | [] => false

/-- Matcher for the legacy stem filter `-\\d+w` (regex, anywhere in the stem). -/
def containsDashDigitsW : List Char → Bool
  | [] => false
  | c :: rest => (c == '-' && startsDigitsThenW rest) || containsDashDigitsW rest

/-- Matcher for `-\\d+w$` (regex) on a reversed stem: a `w`, one or more
digits, then a dash. -/
def endsWithDashDigitsWAux (r : List Char) : Bool :=
  match r with
  | [] => false
  | c :: rest =>
    c == 'w' &&
      (match rest with
       | c2 :: _ => c2.isDigit
       | [] => false) &&
      (match List.dropWhile Char.isDigit rest with
       | c3 :: _ => c3 == '-'
       | [] => false)

/-- Matcher for the deploy stem filter `-\\d+w$` (regex). -/
def endsWithDashDigitsW (s : String) : Bool :=
  endsWithDashDigitsWAux s.data.reverse

/-- Variant-stem skip of the deploy walker (`processSourceDirectory`): stems
matching `-\d+w$` or ending in `-original` are previously generated outputs
and are dropped before `processSourceImage` is ever called. -/
def deployWalkerSkipsVariant (file : String) : Bool :=
  endsWithDashDigitsW (pathBasenameNoExt file (pathExtname file)) ||
    jsEndsWith (pathBasenameNoExt file (pathExtname file)) "-original"

/-- Per-file decision of the legacy `processDirectory`: an image-extension
file is processed (original sharpened in place, variants generated) unless the
legacy skip predicate matches or the stem contains a `-{digits}w` fragment. -/
def legacyProcessesFile (file : String) : Bool :=
  imagePatternTest file && !shouldSkipFileLegacy file &&
    !containsDashDigitsW (pathBasenameNoExt file (pathExtname file)).data

/-- C7 (amended): every filename matching the claim's exclusion predicate is
skip-listed by the deploy script's `shouldSkipFile`, and a run over such files
leaves the filesystem and both counters untouched — they are short-circuited
before the staleness oracle and before being counted as processed or skipped.
The legacy script, however, only excludes the exact name
`safari-pinned-tab.svg` from the pinned-tab family. -/
theorem C7_exclusion (buildRoot : String) (τ : String → Nat) (fails : String → Bool)
    (fs : FS) (pr sk : Nat) (sources : List String) :
    (∀ p, specExcludedFilename p = true → shouldSkipFile p = true) ∧
    ((∀ p ∈ sources, specExcludedFilename p = true) →
      runEngine buildRoot τ fails sources (fs, pr, sk) = (fs, pr, sk)) :=
  ⟨shouldSkipFile_of_specExcluded, fun hall =>
    runEngine_excluded buildRoot τ fails sources fs pr sk
      (fun p hp => shouldSkipFile_of_specExcluded p (hall p hp))⟩

/-- C7 counterexample: `safari-pinned-tab.png` matches the claim's exclusion
prefix, yet the legacy script does not skip it — it generates artifacts for
it. -/
theorem C7_exclusion_cex :
    jsStartsWith (pathBasename "safari-pinned-tab.png") "safari-pinned-tab" = true ∧
      shouldSkipFileLegacy "safari-pinned-tab.png" = false ∧
      legacyProcessesFile "safari-pinned-tab.png" = true := by
  decide

/-- Write-time assignment used by concrete engine runs in witnesses. -/
def tauFive : String → Nat := fun _ => 5

/-- Failure set for witnesses: no write fails. -/
def noFail : String → Bool := fun _ => false

/-- Witness for C7: a run of the deploy engine over two favicon-family files
changes nothing — same filesystem, no file counted processed or skipped. -/
theorem C7_exclusion_witness :
    shouldSkipFile "favicon-32x32.png" = true ∧
      runEngine "build" tauFive noFail ["favicon-32x32.png", "apple-touch-icon.png"]
        (fsAllOne, 3, 4) = (fsAllOne, 3, 4) :=
  ⟨(C7_exclusion "build" tauFive noFail fsAllOne 3 4 []).1 "favicon-32x32.png" (by decide),
   (C7_exclusion "build" tauFive noFail fsAllOne 3 4
      ["favicon-32x32.png", "apple-touch-icon.png"]).2 (by decide)⟩

/-! ## String-surgery lemmas for the walker matchers -/

theorem string_eq_of_data (a b : String) (h : a.data = b.data) : a = b := by
  cases a; cases b; exact congrArg String.mk h

theorem data_append (a b : String) : (a ++ b).data = a.data ++ b.data :=
  String.data_append a b

theorem takeWhile_eq_self_of_all (p : Char → Bool) (l : List Char)
    (h : ∀ x ∈ l, p x = true) : List.takeWhile p l = l := by
  induction l with
  | nil => rfl
  | cons c t ih =>
    have hc := h c (List.mem_cons_self c t)
    simp [List.takeWhile_cons, hc, ih (fun x hx => h x (List.mem_cons_of_mem c hx))]

theorem takeWhile_append_all (p : Char → Bool) (l₁ l₂ : List Char)
    (h : ∀ x ∈ l₁, p x = true) :
    List.takeWhile p (l₁ ++ l₂) = l₁ ++ List.takeWhile p l₂ := by
  induction l₁ with
  | nil => rfl
  | cons c t ih =>
    have hc := h c (List.mem_cons_self c t)
    simp [List.takeWhile_cons, hc, ih (fun x hx => h x (List.mem_cons_of_mem c hx))]

theorem dropWhile_append_all (p : Char → Bool) (l₁ l₂ : List Char)
    (h : ∀ x ∈ l₁, p x = true) :
    List.dropWhile p (l₁ ++ l₂) = List.dropWhile p l₂ := by
  induction l₁ with
  | nil => rfl
  | cons c t ih =>
    have hc := h c (List.mem_cons_self c t)
    simp [List.dropWhile_cons, hc, ih (fun x hx => h x (List.mem_cons_of_mem c hx))]

theorem isPrefixOf_iff_exists (l m : List Char) :
    l.isPrefixOf m = true ↔ ∃ t, m = l ++ t := by
  induction l generalizing m with
  | nil => simp [List.isPrefixOf]
  | cons a l ih =>
    cases m with
    | nil => simp [List.isPrefixOf]
    | cons b m =>
      simp only [List.isPrefixOf, Bool.and_eq_true, beq_iff_eq, ih, List.cons_append,
        List.cons.injEq]
      constructor
      · rintro ⟨rfl, t, rfl⟩
        exact ⟨t, rfl, rfl⟩
      · rintro ⟨t, h1, h2⟩
        exact ⟨h1.symm, t, h2⟩

theorem isPrefixOf_self_append (l t : List Char) : l.isPrefixOf (l ++ t) = true :=
  (isPrefixOf_iff_exists l (l ++ t)).mpr ⟨t, rfl⟩

theorem isSuffixOf_append_self (l t : List Char) : List.isSuffixOf t (l ++ t) = true := by
  unfold List.isSuffixOf
  rw [List.reverse_append]
  exact isPrefixOf_self_append t.reverse l.reverse

theorem jsEndsWith_append (a b : String) : jsEndsWith (a ++ b) b = true := by
  unfold jsEndsWith
  rw [data_append]
  exact isSuffixOf_append_self a.data b.data

theorem pathBasename_chars (p : String) : ∀ c ∈ (pathBasename p).data, c ≠ '/' := by
  intro c hc
  simp only [pathBasename] at hc
  rw [List.mem_reverse] at hc
  have hx := List.mem_takeWhile_imp hc
  simpa using hx

theorem pathBasenameNoExt_chars (p e : String) :
    ∀ c ∈ (pathBasenameNoExt p e).data, c ≠ '/' := by
  intro c hc
  simp only [pathBasenameNoExt] at hc
  by_cases hcond : (e ≠ pathBasename p ∧ jsEndsWith (pathBasename p) e = true)
  · rw [if_pos hcond] at hc
    exact pathBasename_chars p c (List.mem_of_mem_take hc)
  · rw [if_neg hcond] at hc
    exact pathBasename_chars p c hc

theorem pathBasename_of_noslash (name : String) (h : ∀ c ∈ name.data, c ≠ '/') :
    pathBasename name = name := by
  apply string_eq_of_data
  show (List.takeWhile _ name.data.reverse).reverse = name.data
  rw [takeWhile_eq_self_of_all _ _ (fun x hx => by
    rw [decide_eq_true_eq]
    exact h x (List.mem_reverse.mp hx))]
  rw [List.reverse_reverse]

theorem pathBasename_join (d name : String) (h : ∀ c ∈ name.data, c ≠ '/')
    (hne : name ≠ "") : pathBasename (pathJoin d name) = name := by
  unfold pathJoin
  by_cases hd : d = ""
  · rw [if_pos hd]
    exact pathBasename_of_noslash name h
  · rw [if_neg hd, if_neg hne]
    apply string_eq_of_data
    show (List.takeWhile _ (d ++ "/" ++ name).data.reverse).reverse = name.data
    have hdata : (d ++ "/" ++ name).data = (d.data ++ ['/']) ++ name.data := by
      rw [data_append, data_append]
    rw [hdata, List.reverse_append]
    rw [takeWhile_append_all _ _ _ (fun x hx => by
      rw [decide_eq_true_eq]
      exact h x (List.mem_reverse.mp hx))]
    have h2 : (d.data ++ ['/']).reverse = '/' :: d.data.reverse := by
      rw [List.reverse_append]
      rfl
    rw [h2]
    rw [show List.takeWhile (fun x => decide (x ≠ '/')) ('/' :: d.data.reverse) =
        ([] : List Char) from rfl]
    rw [List.append_nil, List.reverse_reverse]

theorem mem_of_mem_takeWhile (p : Char → Bool) (l : List Char) (x : Char)
    (h : x ∈ List.takeWhile p l) : x ∈ l := by
  induction l with
  | nil => simp at h
  | cons c t ih =>
    rw [List.takeWhile_cons] at h
    by_cases hc : p c = true
    · rw [if_pos hc] at h
      rcases List.mem_cons.mp h with rfl | hm
      · exact List.mem_cons_self _ _
      · exact List.mem_cons_of_mem _ (ih hm)
    · rw [if_neg hc] at h
      exact absurd h (List.not_mem_nil x)

theorem string_ne_empty_of_data (B : String) (h : B ≠ "") : B.data ≠ [] := by
  intro h0
  exact h (string_eq_of_data B "" h0)

/-- A non-empty extension computed by `pathExtname` is a dot followed by a
dot-free, slash-free tail. -/
theorem pathExtname_parts (s : String) (h : pathExtname s ≠ "") :
    ∃ t, (pathExtname s).data = '.' :: t ∧ '.' ∉ t ∧ ∀ c ∈ t, c ≠ '/' := by
  unfold pathExtname at *
  by_cases h1 : ((pathBasename s).data.reverse.takeWhile (· ≠ '.')).length =
      (pathBasename s).data.length
  · rw [if_pos h1] at h
    exact absurd rfl h
  · rw [if_neg h1] at h ⊢
    by_cases h2 : ((pathBasename s).data.reverse.takeWhile (· ≠ '.')).length + 1 =
        (pathBasename s).data.length
    · rw [if_pos h2] at h
      exact absurd rfl h
    · rw [if_neg h2]
      refine ⟨((pathBasename s).data.reverse.takeWhile (· ≠ '.')).reverse, rfl, ?_, ?_⟩
      · intro hdot
        have hx := List.mem_takeWhile_imp (List.mem_reverse.mp hdot)
        simp at hx
      · intro c hc
        have hmem := List.mem_reverse.mp hc
        have hcb : c ∈ (pathBasename s).data :=
          List.mem_reverse.mp (mem_of_mem_takeWhile _ _ _ hmem)
        exact pathBasename_chars s c hcb

/-- `pathExtname` of a slash-free string of the form `B ++ E`, where `E` is a
dot followed by a dot-free tail and `B` is non-empty, is exactly `E`. -/
theorem pathExtname_append_ext (B E : String)
    (hB : ∀ c ∈ B.data, c ≠ '/') (hE : ∀ c ∈ E.data, c ≠ '/')
    (t : List Char) (hEd : E.data = '.' :: t) (hnd : '.' ∉ t)
    (hBne : B ≠ "") : pathExtname (B ++ E) = E := by
  have hslash : ∀ c ∈ (B ++ E).data, c ≠ '/' := by
    intro c hc
    rw [data_append] at hc
    rcases List.mem_append.mp hc with hm | hm
    · exact hB c hm
    · exact hE c hm
  have hbase : pathBasename (B ++ E) = B ++ E := pathBasename_of_noslash _ hslash
  have hdataeq : (B ++ E).data = B.data ++ '.' :: t := by rw [data_append, hEd]
  have hrev : (B.data ++ '.' :: t).reverse = t.reverse ++ '.' :: B.data.reverse := by
    rw [List.reverse_append, List.reverse_cons]
    simp [List.append_assoc]
  have hpre : List.takeWhile (fun c => decide (c ≠ '.')) ((B ++ E).data.reverse)
      = t.reverse := by
    rw [hdataeq, hrev]
    rw [takeWhile_append_all _ _ _ (fun x hx => by
      rw [decide_eq_true_eq]
      intro hxe
      exact hnd (hxe ▸ List.mem_reverse.mp hx))]
    rw [show List.takeWhile (fun c => decide (c ≠ '.')) ('.' :: B.data.reverse) =
        ([] : List Char) from rfl]
    rw [List.append_nil]
  have hBlen : 0 < B.data.length :=
    List.length_pos.mpr (string_ne_empty_of_data B hBne)
  have hlen : (B ++ E).data.length = B.data.length + t.length + 1 := by
    rw [hdataeq]
    simp [List.length_append]
    omega
  simp only [pathExtname, hbase, hpre]
  rw [if_neg (by
    rw [List.length_reverse, hlen]
    omega)]
  rw [if_neg (by
    rw [List.length_reverse, hlen]
    omega)]
  rw [List.reverse_reverse]
  exact string_eq_of_data _ _ (by rw [hEd])

/-- The stem (`path.basename(p, path.extname(p))`) of a slash-free `B ++ E`
with `E` a dotted extension and `B` non-empty is exactly `B`. -/
theorem pathBasenameNoExt_append_ext (B E : String)
    (hB : ∀ c ∈ B.data, c ≠ '/') (hE : ∀ c ∈ E.data, c ≠ '/')
    (t : List Char) (hEd : E.data = '.' :: t) (hnd : '.' ∉ t)
    (hBne : B ≠ "") :
    pathBasenameNoExt (B ++ E) (pathExtname (B ++ E)) = B := by
  rw [pathExtname_append_ext B E hB hE t hEd hnd hBne]
  have hslash : ∀ c ∈ (B ++ E).data, c ≠ '/' := by
    intro c hc
    rw [data_append] at hc
    rcases List.mem_append.mp hc with hm | hm
    · exact hB c hm
    · exact hE c hm
  unfold pathBasenameNoExt
  rw [pathBasename_of_noslash _ hslash]
  have hend : jsEndsWith (B ++ E) E = true := jsEndsWith_append B E
  have hneq : E ≠ B ++ E := by
    intro he
    apply hBne
    have hd : E.data = B.data ++ E.data := by rw [← data_append, ← he]
    have hlen := congrArg List.length hd
    rw [List.length_append] at hlen
    exact string_eq_of_data B ""
      (List.eq_nil_of_length_eq_zero (by omega))
  rw [if_pos ⟨hneq, hend⟩]
  apply string_eq_of_data
  show ((B ++ E).data.take ((B ++ E).data.length - E.data.length)) = B.data
  rw [data_append, List.length_append]
  rw [show B.data.length + E.data.length - E.data.length = B.data.length from by omega]
  exact List.take_left B.data E.data

theorem pathExtname_eq_of_basename (p q : String) (h : pathBasename p = pathBasename q) :
    pathExtname p = pathExtname q := by
  unfold pathExtname
  rw [h]

theorem pathBasenameNoExt_eq_of_basename (p q e : String)
    (h : pathBasename p = pathBasename q) :
    pathBasenameNoExt p e = pathBasenameNoExt q e := by
  unfold pathBasenameNoExt
  rw [h]

theorem strAppend_assoc (a b c : String) : a ++ b ++ c = a ++ (b ++ c) :=
  string_eq_of_data _ _ (by
    rw [data_append, data_append, data_append, data_append, List.append_assoc])

theorem endsWithDashDigitsW_of_suffix (s : String) (ds : List Char) (hds : ds ≠ [])
    (hdig : ∀ c ∈ ds, c.isDigit = true)
    (hsuf : List.isSuffixOf ('-' :: ds ++ ['w']) s.data = true) :
    endsWithDashDigitsW s = true := by
  unfold List.isSuffixOf at hsuf
  obtain ⟨t, ht⟩ := (isPrefixOf_iff_exists _ _).mp hsuf
  have hrev : s.data.reverse = 'w' :: (ds.reverse ++ '-' :: t) := by
    rw [ht]
    simp
  obtain ⟨c, cs, hcs⟩ : ∃ c cs, ds.reverse = c :: cs := by
    cases hd : ds.reverse with
    | nil => exact absurd (List.reverse_eq_nil_iff.mp hd) hds
    | cons c cs => exact ⟨c, cs, rfl⟩
  have hcdig : c.isDigit = true :=
    hdig c (List.mem_reverse.mp (hcs ▸ List.mem_cons_self c cs))
  have hdrop : List.dropWhile Char.isDigit (ds.reverse ++ '-' :: t) = '-' :: t := by
    rw [dropWhile_append_all _ _ _ (fun x hx => hdig x (List.mem_reverse.mp hx))]
    rw [List.dropWhile_cons]
    rw [show Char.isDigit '-' = false from rfl]
    simp
  unfold endsWithDashDigitsW
  rw [hrev]
  simp only [endsWithDashDigitsWAux]
  rw [hdrop]
  rw [hcs]
  simp [hcdig]

theorem endsWithDashDigitsW_append (B ts : String) (hds : ts.data ≠ [])
    (hdig : ∀ c ∈ ts.data, c.isDigit = true) :
    endsWithDashDigitsW (B ++ ⟨'-' :: ts.data ++ ['w']⟩) = true := by
  apply endsWithDashDigitsW_of_suffix _ ts.data hds hdig
  rw [data_append]
  exact isSuffixOf_append_self B.data ('-' :: ts.data ++ ['w'])

/-- Any file `dir/(B ++ E)` (slash-free `B`, dotted extension `E`) whose stem
`B` matches one of the generated-output suffixes is dropped by the deploy
walker's variant filter. -/
theorem deployWalkerSkipsVariant_join (dir B E : String) (t : List Char)
    (hB : ∀ c ∈ B.data, c ≠ '/') (hE : ∀ c ∈ E.data, c ≠ '/')
    (hEd : E.data = '.' :: t) (hnd : '.' ∉ t) (hBne : B ≠ "")
    (hBmatch : endsWithDashDigitsW B = true ∨ jsEndsWith B "-original" = true) :
    deployWalkerSkipsVariant (pathJoin dir (B ++ E)) = true := by
  have hslash : ∀ c ∈ (B ++ E).data, c ≠ '/' := by
    intro c hc
    rw [data_append] at hc
    rcases List.mem_append.mp hc with hm | hm
    · exact hB c hm
    · exact hE c hm
  have hne : B ++ E ≠ "" := by
    intro h0
    have hd := congrArg String.data h0
    rw [data_append, hEd] at hd
    simp at hd
  have hbj : pathBasename (pathJoin dir (B ++ E)) = pathBasename (B ++ E) := by
    rw [pathBasename_join dir (B ++ E) hslash hne, pathBasename_of_noslash _ hslash]
  unfold deployWalkerSkipsVariant
  rw [pathExtname_eq_of_basename _ (B ++ E) hbj]
  rw [pathBasenameNoExt_eq_of_basename _ (B ++ E) _ hbj]
  rw [pathBasenameNoExt_append_ext B E hB hE t hEd hnd hBne]
  rcases hBmatch with hm | hm <;> simp [hm]

/-- C10 (amended): the deploy walker skips every encountered file whose stem
matches `-{digits}w` at the end or ends in `-original`; consequently, for any
source with a real (dotted) extension, every artifact path the engine itself
generates is skipped when re-encountered — the engine never generates
artifacts of artifacts.  The legacy walker only filters stems containing
`-{digits}w` and does not skip `-original` files (see the counterexample). -/
theorem C10_no_reingestion (file src buildRoot : String) (ds : List Char) :
    (ds ≠ [] → (∀ c ∈ ds, c.isDigit = true) →
      List.isSuffixOf (('-' :: ds) ++ ['w'])
          (pathBasenameNoExt file (pathExtname file)).data = true →
      deployWalkerSkipsVariant file = true) ∧
    (jsEndsWith (pathBasenameNoExt file (pathExtname file)) "-original" = true →
      deployWalkerSkipsVariant file = true) ∧
    (pathExtname src ≠ "" →
      ∀ p ∈ getBuildOutputPaths src buildRoot, deployWalkerSkipsVariant p = true) := by
  refine ⟨?_, ?_, ?_⟩
  · intro hds hdig hsuf
    unfold deployWalkerSkipsVariant
    rw [endsWithDashDigitsW_of_suffix _ ds hds hdig hsuf]
    simp
  · intro hor
    unfold deployWalkerSkipsVariant
    rw [hor]
    simp
  · intro hext
    obtain ⟨t, hEd, hnd, htslash⟩ := pathExtname_parts src hext
    have hEsl : ∀ c ∈ (pathExtname src).data, c ≠ '/' := by
      intro c hc
      rw [hEd] at hc
      rcases List.mem_cons.mp hc with rfl | hm
      · decide
      · exact htslash c hm
    have hbnsl : ∀ c ∈ (pathBasenameNoExt src (pathExtname src)).data, c ≠ '/' :=
      pathBasenameNoExt_chars src (pathExtname src)
    have hvar : ∀ dir ts : String, ts.data ≠ [] → (∀ c ∈ ts.data, c.isDigit = true) →
        (∀ c ∈ ts.data, c ≠ '/') →
        deployWalkerSkipsVariant (pathJoin dir
            (pathBasenameNoExt src (pathExtname src) ++ "-" ++ ts ++ "w.webp")) = true ∧
        deployWalkerSkipsVariant (pathJoin dir
            (pathBasenameNoExt src (pathExtname src) ++ "-" ++ ts ++ "w" ++
              pathExtname src)) = true := by
      intro dir ts htne htdig htsl
      have hBslash : ∀ c ∈ (pathBasenameNoExt src (pathExtname src) ++ "-" ++ ts ++
          "w").data, c ≠ '/' := by
        intro c hc
        rw [data_append, data_append, data_append] at hc
        rcases List.mem_append.mp hc with hc1 | hw
        · rcases List.mem_append.mp hc1 with hc2 | hts
          · rcases List.mem_append.mp hc2 with hbn | hdash
            · exact hbnsl c hbn
            · rw [show ("-" : String).data = ['-'] from rfl] at hdash
              simp at hdash
              subst hdash
              decide
          · exact htsl c hts
        · rw [show ("w" : String).data = ['w'] from rfl] at hw
          simp at hw
          subst hw
          decide
      have hBne : pathBasenameNoExt src (pathExtname src) ++ "-" ++ ts ++ "w" ≠ "" := by
        intro h0
        have hmem : ('w' : Char) ∈ (pathBasenameNoExt src (pathExtname src) ++ "-" ++
            ts ++ "w").data := by
          rw [data_append]
          exact List.mem_append.mpr (Or.inr (by decide))
        rw [congrArg String.data h0] at hmem
        exact List.not_mem_nil _ hmem
      have hstemEq : pathBasenameNoExt src (pathExtname src) ++ "-" ++ ts ++ "w" =
          pathBasenameNoExt src (pathExtname src) ++ ⟨('-' :: ts.data) ++ ['w']⟩ :=
        string_eq_of_data _ _ (by
          rw [data_append, data_append, data_append, data_append]
          rw [show ("-" : String).data = ['-'] from rfl,
              show ("w" : String).data = ['w'] from rfl]
          simp [List.append_assoc])
      have hmatch : endsWithDashDigitsW
          (pathBasenameNoExt src (pathExtname src) ++ "-" ++ ts ++ "w") = true := by
        rw [hstemEq]
        exact endsWithDashDigitsW_append _ ts htne htdig
      constructor
      · rw [show ("w.webp" : String) = "w" ++ ".webp" from rfl]
        rw [← strAppend_assoc]
        exact deployWalkerSkipsVariant_join dir _ ".webp" "webp".data hBslash
          (by decide) rfl (by decide) hBne (Or.inl hmatch)
      · exact deployWalkerSkipsVariant_join dir _ (pathExtname src) t hBslash hEsl
          hEd hnd hBne (Or.inl hmatch)
    intro p hp
    rcases List.mem_cons.mp hp with rfl | hp2
    · -- the sharpened-original path
      have hBsl : ∀ c ∈ (pathBasenameNoExt src (pathExtname src) ++
          "-original").data, c ≠ '/' := by
        intro c hc
        rw [data_append] at hc
        rcases List.mem_append.mp hc with hbn | horig
        · exact hbnsl c hbn
        · exact (by decide : ∀ x ∈ ("-original" : String).data, x ≠ '/') c horig
      have hBne : pathBasenameNoExt src (pathExtname src) ++ "-original" ≠ "" := by
        intro h0
        have hmem : ('l' : Char) ∈ (pathBasenameNoExt src (pathExtname src) ++
            "-original").data := by
          rw [data_append]
          exact List.mem_append.mpr (Or.inr (by decide))
        rw [congrArg String.data h0] at hmem
        exact List.not_mem_nil _ hmem
      exact deployWalkerSkipsVariant_join _ _ (pathExtname src) t hBsl hEsl hEd hnd
        hBne (Or.inr (jsEndsWith_append _ "-original"))
    · simp only [SIZES] at hp2
      obtain ⟨sz, hsz, hpf⟩ := List.mem_flatMap.mp hp2
      simp only [List.mem_cons, List.not_mem_nil, or_false] at hsz
      have hcase : p = pathJoin (pathJoin (pathJoin buildRoot "temp/public_html")
            (pathDirname (pathRelative "public_html" src)))
            (pathBasenameNoExt src (pathExtname src) ++ "-" ++ toString sz ++ "w.webp") ∨
          p = pathJoin (pathJoin (pathJoin buildRoot "temp/public_html")
            (pathDirname (pathRelative "public_html" src)))
            (pathBasenameNoExt src (pathExtname src) ++ "-" ++ toString sz ++ "w" ++
              pathExtname src) := by
        rcases List.mem_cons.mp hpf with h1 | hpf2
        · exact Or.inl h1
        · rcases List.mem_cons.mp hpf2 with h2 | h0
          · exact Or.inr h2
          · exact absurd h0 (List.not_mem_nil p)
      have hts : (toString sz).data ≠ [] ∧ (∀ c ∈ (toString sz).data, c.isDigit = true) ∧
          ∀ c ∈ (toString sz).data, c ≠ '/' := by
        rcases hsz with rfl | rfl | rfl | rfl | rfl <;>
          exact ⟨by decide, by decide, by decide⟩
      rcases hcase with rfl | rfl
      · exact (hvar _ (toString sz) hts.1 hts.2.1 hts.2.2).1
      · exact (hvar _ (toString sz) hts.1 hts.2.1 hts.2.2).2

/-- C10 counterexample: the legacy walker does not skip a `-original` file —
`hero-original.png` passes its filters and is processed, so the legacy script
generates artifacts of that artifact. -/
theorem C10_no_reingestion_cex :
    jsEndsWith (pathBasenameNoExt "hero-original.png" (pathExtname "hero-original.png"))
        "-original" = true ∧
      legacyProcessesFile "hero-original.png" = true := by
  decide

/-- Witness for C10: a generated `-320w.webp` variant of `a.png` is skipped by
the deploy walker when it shows up in a scanned tree. -/
theorem C10_no_reingestion_witness :
    deployWalkerSkipsVariant "build/temp/public_html/assets/images/a-320w.webp" = true :=
  (C10_no_reingestion "x" "public_html/assets/images/a.png" "build" []).2.2
    (by decide) "build/temp/public_html/assets/images/a-320w.webp" (by decide)

/-! ## Idempotence of the engine (C5) -/

theorem runEngine_mtime_or (buildRoot : String) (τ : String → Nat)
    (fails : String → Bool) :
    ∀ (todo : List String) (st : FS × Nat × Nat) (p : String),
      (runEngine buildRoot τ fails todo st).1.mtime p = st.1.mtime p ∨
        (runEngine buildRoot τ fails todo st).1.mtime p = some (τ p)
  | [], _, _ => Or.inl rfl
  | src :: rest, (fs, pr, sk), p => by
    by_cases hskip : shouldSkipFile src = true
    · rw [show runEngine buildRoot τ fails (src :: rest) (fs, pr, sk) =
          runEngine buildRoot τ fails rest (fs, pr, sk) from by simp [runEngine, hskip]]
      exact runEngine_mtime_or buildRoot τ fails rest (fs, pr, sk) p
    · by_cases hneed : needsProcessing fs src buildRoot = true
      · rw [show runEngine buildRoot τ fails (src :: rest) (fs, pr, sk) =
            runEngine buildRoot τ fails rest
              (generateArtifacts fails τ (writtenPaths src buildRoot) fs, pr + 1, sk)
            from by simp [runEngine, hskip, hneed]]
        rcases runEngine_mtime_or buildRoot τ fails rest
            (generateArtifacts fails τ (writtenPaths src buildRoot) fs, pr + 1, sk) p with
          h | h
        · rw [h, generateArtifacts_mtime]
          by_cases hc : p ∈ writtenPaths src buildRoot ∧ fails p = false
          · rw [if_pos hc]
            exact Or.inr rfl
          · rw [if_neg hc]
            exact Or.inl rfl
        · exact Or.inr h
      · rw [show runEngine buildRoot τ fails (src :: rest) (fs, pr, sk) =
            runEngine buildRoot τ fails rest (fs, pr, sk + 1) from by
          simp [runEngine, hskip, hneed]]
        exact runEngine_mtime_or buildRoot τ fails rest (fs, pr, sk + 1) p

theorem runEngine_mtime_untouched (buildRoot : String) (τ : String → Nat)
    (fails : String → Bool) :
    ∀ (todo : List String) (st : FS × Nat × Nat) (p : String),
      (∀ s ∈ todo, p ∉ writtenPaths s buildRoot) →
      (runEngine buildRoot τ fails todo st).1.mtime p = st.1.mtime p
  | [], _, _, _ => rfl
  | src :: rest, (fs, pr, sk), p, hout => by
    have hrest : ∀ s ∈ rest, p ∉ writtenPaths s buildRoot :=
      fun s hs => hout s (List.mem_cons_of_mem src hs)
    have hsrc : p ∉ writtenPaths src buildRoot := hout src (List.mem_cons_self src rest)
    by_cases hskip : shouldSkipFile src = true
    · rw [show runEngine buildRoot τ fails (src :: rest) (fs, pr, sk) =
          runEngine buildRoot τ fails rest (fs, pr, sk) from by simp [runEngine, hskip]]
      exact runEngine_mtime_untouched buildRoot τ fails rest (fs, pr, sk) p hrest
    · by_cases hneed : needsProcessing fs src buildRoot = true
      · rw [show runEngine buildRoot τ fails (src :: rest) (fs, pr, sk) =
            runEngine buildRoot τ fails rest
              (generateArtifacts fails τ (writtenPaths src buildRoot) fs, pr + 1, sk)
            from by simp [runEngine, hskip, hneed]]
        rw [runEngine_mtime_untouched buildRoot τ fails rest _ p hrest]
        rw [generateArtifacts_mtime]
        rw [if_neg (fun hc => hsrc hc.1)]
      · rw [show runEngine buildRoot τ fails (src :: rest) (fs, pr, sk) =
            runEngine buildRoot τ fails rest (fs, pr, sk + 1) from by
          simp [runEngine, hskip, hneed]]
        exact runEngine_mtime_untouched buildRoot τ fails rest (fs, pr, sk + 1) p hrest

/-- Freshness is stable under overwriting arbitrary paths with write times at
least `now`, as long as the source file itself is untouched and not newer than
`now`. -/
theorem needsProcessing_stable (buildRoot : String) (τ : String → Nat) (now : Nat)
    (fsA fsB : FS) (s : String)
    (hfresh : needsProcessing fsA s buildRoot = false)
    (hsle : getFileTime fsA s ≤ now)
    (hnow : 0 < now)
    (hτ : ∀ p, now ≤ τ p)
    (hw : ∀ p, fsB.mtime p = fsA.mtime p ∨ fsB.mtime p = some (τ p))
    (hs : fsB.mtime s = fsA.mtime s) :
    needsProcessing fsB s buildRoot = false := by
  rw [needsProcessing_eq_false_iff] at hfresh ⊢
  have hsrcB : getFileTime fsB s = getFileTime fsA s := by
    unfold getFileTime
    rw [hs]
  intro p hp
  rcases hw p with hpe | hpτ
  · have hgp : getFileTime fsB p = getFileTime fsA p := by
      unfold getFileTime
      rw [hpe]
    rw [hgp, hsrcB]
    exact hfresh p hp
  · have hgp : getFileTime fsB p = τ p := by
      unfold getFileTime
      rw [hpτ]
    rw [hgp, hsrcB]
    have h1 := hτ p
    exact ⟨by omega, by omega⟩

/-- Right after a fully successful generation pass, the processed source is
fresh: every output carries a write time ≥ `now` ≥ the source's mtime. -/
theorem needsProcessing_after_write (buildRoot : String) (τ : String → Nat) (now : Nat)
    (fs : FS) (s : String)
    (hnow : 0 < now) (hτ : ∀ p, now ≤ τ p)
    (hsle : getFileTime fs s ≤ now)
    (hnotout : s ∉ writtenPaths s buildRoot) :
    needsProcessing (generateArtifacts (fun _ => false) τ (writtenPaths s buildRoot) fs)
      s buildRoot = false := by
  rw [needsProcessing_eq_false_iff]
  intro p hp
  have hpw : p ∈ writtenPaths s buildRoot := List.mem_cons_of_mem _ hp
  have hgp : (generateArtifacts (fun _ => false) τ (writtenPaths s buildRoot) fs).mtime p
      = some (τ p) := by
    rw [generateArtifacts_mtime]
    rw [if_pos ⟨hpw, rfl⟩]
  have hgs : (generateArtifacts (fun _ => false) τ (writtenPaths s buildRoot) fs).mtime s
      = fs.mtime s := by
    rw [generateArtifacts_mtime, if_neg (fun hc => hnotout hc.1)]
  have hfp : getFileTime (generateArtifacts (fun _ => false) τ
      (writtenPaths s buildRoot) fs) p = τ p := by
    unfold getFileTime
    rw [hgp]
  have hfs : getFileTime (generateArtifacts (fun _ => false) τ
      (writtenPaths s buildRoot) fs) s = getFileTime fs s := by
    unfold getFileTime
    rw [hgs]
  rw [hfp, hfs]
  have h1 := hτ p
  exact ⟨by omega, by omega⟩

/-- After the first run, every source is either permanently excluded or fresh:
the post-run invariant behind idempotence. -/
theorem runEngine_post_fresh (buildRoot : String) (τ : String → Nat) (now : Nat)
    (fsInit : FS) (sources : List String)
    (hnow : 0 < now) (hτ : ∀ p, now ≤ τ p)
    (hsrc : ∀ s ∈ sources, getFileTime fsInit s ≤ now)
    (hdisj : ∀ s ∈ sources, ∀ s2 ∈ sources, s ∉ writtenPaths s2 buildRoot)
    (todo : List String) (fs : FS) (pr sk : Nat)
    (hsub : ∀ s ∈ todo, s ∈ sources)
    (hfix : ∀ s ∈ sources, fs.mtime s = fsInit.mtime s) :
    ∀ s ∈ todo, shouldSkipFile s = true ∨
      needsProcessing (runEngine buildRoot τ (fun _ => false) todo (fs, pr, sk)).1
        s buildRoot = false := by
  induction todo generalizing fs pr sk with
  | nil =>
    intro s hs
    exact absurd hs (List.not_mem_nil s)
  | cons s0 rest ih =>
    have hs0src : s0 ∈ sources := hsub s0 (List.mem_cons_self s0 rest)
    have hrestsub : ∀ s ∈ rest, s ∈ sources :=
      fun s hs => hsub s (List.mem_cons_of_mem s0 hs)
    have hs0time : getFileTime fs s0 ≤ now := by
      have h2 := hsrc s0 hs0src
      unfold getFileTime at h2 ⊢
      rw [hfix s0 hs0src]
      exact h2
    by_cases hskip : shouldSkipFile s0 = true
    · have hrun : runEngine buildRoot τ (fun _ => false) (s0 :: rest) (fs, pr, sk) =
          runEngine buildRoot τ (fun _ => false) rest (fs, pr, sk) := by
        simp [runEngine, hskip]
      intro s hs
      rcases List.mem_cons.mp hs with rfl | hsrest
      · exact Or.inl hskip
      · rw [hrun]
        exact ih fs pr sk hrestsub hfix s hsrest
    · by_cases hneed : needsProcessing fs s0 buildRoot = true
      · have hrun : runEngine buildRoot τ (fun _ => false) (s0 :: rest) (fs, pr, sk) =
            runEngine buildRoot τ (fun _ => false) rest
              (generateArtifacts (fun _ => false) τ (writtenPaths s0 buildRoot) fs,
               pr + 1, sk) := by
          simp [runEngine, hskip, hneed]
        have hfixW : ∀ s ∈ sources,
            (generateArtifacts (fun _ => false) τ (writtenPaths s0 buildRoot) fs).mtime s
              = fsInit.mtime s := by
          intro s hs
          rw [generateArtifacts_mtime, if_neg (fun hc => hdisj s hs s0 hs0src hc.1)]
          exact hfix s hs
        have hfreshW : needsProcessing
            (generateArtifacts (fun _ => false) τ (writtenPaths s0 buildRoot) fs)
            s0 buildRoot = false :=
          needsProcessing_after_write buildRoot τ now fs s0 hnow hτ hs0time
            (hdisj s0 hs0src s0 hs0src)
        intro s hs
        rcases List.mem_cons.mp hs with rfl | hsrest
        · right
          rw [hrun]
          have hWsle : getFileTime
              (generateArtifacts (fun _ => false) τ (writtenPaths s buildRoot) fs) s
              ≤ now := by
            have h2 := hsrc s hs0src
            unfold getFileTime at h2 ⊢
            rw [hfixW s hs0src]
            exact h2
          exact needsProcessing_stable buildRoot τ now _ _ s hfreshW hWsle hnow hτ
            (fun p => runEngine_mtime_or buildRoot τ (fun _ => false) rest _ p)
            (runEngine_mtime_untouched buildRoot τ (fun _ => false) rest _ s
              (fun s2 hs2 => hdisj s hs0src s2 (hrestsub s2 hs2)))
        · rw [hrun]
          exact ih _ (pr + 1) sk hrestsub hfixW s hsrest
      · have hfresh0 : needsProcessing fs s0 buildRoot = false := by
          cases hx : needsProcessing fs s0 buildRoot
          · rfl
          · exact absurd hx hneed
        have hrun : runEngine buildRoot τ (fun _ => false) (s0 :: rest) (fs, pr, sk) =
            runEngine buildRoot τ (fun _ => false) rest (fs, pr, sk + 1) := by
          simp [runEngine, hskip, hneed]
        intro s hs
        rcases List.mem_cons.mp hs with rfl | hsrest
        · right
          rw [hrun]
          exact needsProcessing_stable buildRoot τ now _ _ s hfresh0 hs0time hnow hτ
            (fun p => runEngine_mtime_or buildRoot τ (fun _ => false) rest _ p)
            (runEngine_mtime_untouched buildRoot τ (fun _ => false) rest _ s
              (fun s2 hs2 => hdisj s hs0src s2 (hrestsub s2 hs2)))
        · rw [hrun]
          exact ih fs pr (sk + 1) hrestsub hfix s hsrest

/-- A run in which every source is excluded or fresh does not touch the
filesystem, processes nothing, and counts every non-excluded source as
skipped. -/
theorem runEngine_all_fresh (buildRoot : String) (τ2 : String → Nat)
    (fails2 : String → Bool) :
    ∀ (todo : List String) (fs : FS) (pr sk : Nat),
      (∀ s ∈ todo, shouldSkipFile s = true ∨ needsProcessing fs s buildRoot = false) →
      runEngine buildRoot τ2 fails2 todo (fs, pr, sk) =
        (fs, pr, sk + (todo.filter (fun s => !shouldSkipFile s)).length)
  | [], fs, pr, sk, _ => by simp [runEngine]
  | s0 :: rest, fs, pr, sk, h => by
    have hrest : ∀ s ∈ rest, shouldSkipFile s = true ∨
        needsProcessing fs s buildRoot = false :=
      fun s hs => h s (List.mem_cons_of_mem s0 hs)
    by_cases hskip : shouldSkipFile s0 = true
    · rw [show runEngine buildRoot τ2 fails2 (s0 :: rest) (fs, pr, sk) =
          runEngine buildRoot τ2 fails2 rest (fs, pr, sk) from by simp [runEngine, hskip]]
      rw [runEngine_all_fresh buildRoot τ2 fails2 rest fs pr sk hrest]
      simp [List.filter_cons, hskip]
    · have hfresh : needsProcessing fs s0 buildRoot = false := by
        rcases h s0 (List.mem_cons_self s0 rest) with hx | hx
        · exact absurd hx hskip
        · exact hx
      rw [show runEngine buildRoot τ2 fails2 (s0 :: rest) (fs, pr, sk) =
          runEngine buildRoot τ2 fails2 rest (fs, pr, sk + 1) from by
        simp [runEngine, hskip, hfresh]]
      rw [runEngine_all_fresh buildRoot τ2 fails2 rest fs pr (sk + 1) hrest]
      simp only [List.filter_cons, hskip, Bool.not_false, if_pos, List.length_cons,
        Prod.mk.injEq, true_and]
      omega

/-- C5: with no source changes between the runs — all first-run writes carry
times ≥ `now` ≥ every source mtime, and no source path doubles as an output
path — the second engine run leaves the on-disk artifact set identical,
processes zero sources, and skips every non-excluded source. -/
theorem C5_idempotence (buildRoot : String) (sources : List String) (fs : FS)
    (τ τ2 : String → Nat) (fails2 : String → Bool) (now : Nat)
    (hnow : 0 < now) (hτ : ∀ p, now ≤ τ p)
    (hsrc : ∀ s ∈ sources, getFileTime fs s ≤ now)
    (hdisj : ∀ s ∈ sources, ∀ s2 ∈ sources, s ∉ writtenPaths s2 buildRoot) :
    runEngine buildRoot τ2 fails2 sources
        ((runEngine buildRoot τ (fun _ => false) sources (fs, 0, 0)).1, 0, 0) =
      ((runEngine buildRoot τ (fun _ => false) sources (fs, 0, 0)).1, 0,
        (sources.filter (fun s => !shouldSkipFile s)).length) := by
  have hpost := runEngine_post_fresh buildRoot τ now fs sources hnow hτ hsrc hdisj
    sources fs 0 0 (fun s hs => hs) (fun s _ => rfl)
  rw [runEngine_all_fresh buildRoot τ2 fails2 sources
    (runEngine buildRoot τ (fun _ => false) sources (fs, 0, 0)).1 0 0 hpost]
  simp

/-- Source tree for the idempotence witness: one image exists with mtime 1,
nothing else exists. -/
def c5Fs : FS := ⟨fun p => if p = "public_html/assets/images/a.png" then some 1 else none⟩

/-- Witness for C5: after a run over one image at write time 2, a second run
(at any later write times) changes nothing, processes 0, skips 1. -/
theorem C5_idempotence_witness :
    runEngine "build" tauFive noFail ["public_html/assets/images/a.png"]
        ((runEngine "build" (fun _ => 2) (fun _ => false)
            ["public_html/assets/images/a.png"] (c5Fs, 0, 0)).1, 0, 0) =
      ((runEngine "build" (fun _ => 2) (fun _ => false)
          ["public_html/assets/images/a.png"] (c5Fs, 0, 0)).1, 0, 1) := by
  have hlen : ((["public_html/assets/images/a.png"].filter
      (fun s => !shouldSkipFile s)).length) = 1 := by decide
  have h := C5_idempotence "build" ["public_html/assets/images/a.png"] c5Fs
    (fun _ => 2) tauFive noFail 2 (by decide) (fun p => Nat.le_refl 2)
    (by decide) (by decide)
  rw [hlen] at h
  exact h

/-! ## Deploy script entry point (main) -/

/-- Path resolution of the deploy script's `main`: the source path, build root
and optional build image path derived from the CLI target, `none` for an
invalid target. -/
def resolveTarget (targetPath : String) : Option (String × String × Option String) :=
  if jsIncludes targetPath "public_html" = true ∧ jsIncludes targetPath "build" = false then
    some (targetPath, "build", none)
  else if jsIncludes targetPath "build" = true then
    let buildRoot := if jsIncludes targetPath "build/temp" = true then
        jsSplitHead targetPath "build/temp" ++ "build"
      else "build"
    let sourcePath := if targetPath = "build/temp" then "public_html/assets/images"
      else pathJoin "public_html" (jsDropThroughLast targetPath "build/temp/public_html/")
    some (sourcePath, buildRoot, some targetPath)
  else none

/-- `main` of the deploy script, with the directory walk abstracted by `enum`
(the image files the walker hands to `processSourceImage` under a given
root).  Returns (exit code, final filesystem, processed, skipped); a missing
CLI target, an invalid target or a missing source root aborts with exit code
1 before any file is processed; otherwise the engine runs to completion and
`main` exits 0, per-file failures included. -/
def mainRun (fs : FS) (τ : String → Nat) (fails : String → Bool)
    (argvTarget : Option String) (enum : String → List String) :
    Nat × FS × Nat × Nat :=
  match argvTarget with
  | none => (1, fs, 0, 0)
  | some targetPath =>
    if targetPath = "" then (1, fs, 0, 0)
    else
      match resolveTarget targetPath with
      | none => (1, fs, 0, 0)
      | some (sourcePath, buildRoot, _) =>
        if fileExists fs sourcePath = true then
          ((0 : Nat), runEngine buildRoot τ fails (enum sourcePath) (fs, 0, 0))
        else (1, fs, 0, 0)

theorem runEngine_processed_mono (buildRoot : String) (τ : String → Nat)
    (fails : String → Bool) :
    ∀ (sources : List String) (fs : FS) (pr sk : Nat),
      pr ≤ (runEngine buildRoot τ fails sources (fs, pr, sk)).2.1
  | [], _, _, _ => Nat.le_refl _
  | s0 :: rest, fs, pr, sk => by
    by_cases hskip : shouldSkipFile s0 = true
    · rw [show runEngine buildRoot τ fails (s0 :: rest) (fs, pr, sk) =
          runEngine buildRoot τ fails rest (fs, pr, sk) from by simp [runEngine, hskip]]
      exact runEngine_processed_mono buildRoot τ fails rest fs pr sk
    · by_cases hneed : needsProcessing fs s0 buildRoot = true
      · rw [show runEngine buildRoot τ fails (s0 :: rest) (fs, pr, sk) =
            runEngine buildRoot τ fails rest
              (generateArtifacts fails τ (writtenPaths s0 buildRoot) fs, pr + 1, sk)
            from by simp [runEngine, hskip, hneed]]
        exact Nat.le_trans (Nat.le_succ pr)
          (runEngine_processed_mono buildRoot τ fails rest _ (pr + 1) sk)
      · rw [show runEngine buildRoot τ fails (s0 :: rest) (fs, pr, sk) =
            runEngine buildRoot τ fails rest (fs, pr, sk + 1) from by
          simp [runEngine, hskip, hneed]]
        exact runEngine_processed_mono buildRoot τ fails rest fs pr (sk + 1)

theorem runEngine_counter_sum (buildRoot : String) (τ : String → Nat)
    (fails : String → Bool) :
    ∀ (sources : List String) (fs : FS) (pr sk : Nat),
      (runEngine buildRoot τ fails sources (fs, pr, sk)).2.1 +
          (runEngine buildRoot τ fails sources (fs, pr, sk)).2.2 =
        pr + sk + (sources.filter (fun s => !shouldSkipFile s)).length
  | [], fs, pr, sk => by simp [runEngine]
  | s0 :: rest, fs, pr, sk => by
    by_cases hskip : shouldSkipFile s0 = true
    · rw [show runEngine buildRoot τ fails (s0 :: rest) (fs, pr, sk) =
          runEngine buildRoot τ fails rest (fs, pr, sk) from by simp [runEngine, hskip]]
      rw [runEngine_counter_sum buildRoot τ fails rest fs pr sk]
      simp [List.filter_cons, hskip]
    · by_cases hneed : needsProcessing fs s0 buildRoot = true
      · rw [show runEngine buildRoot τ fails (s0 :: rest) (fs, pr, sk) =
            runEngine buildRoot τ fails rest
              (generateArtifacts fails τ (writtenPaths s0 buildRoot) fs, pr + 1, sk)
            from by simp [runEngine, hskip, hneed]]
        rw [runEngine_counter_sum buildRoot τ fails rest _ (pr + 1) sk]
        simp only [List.filter_cons, hskip, Bool.not_false, if_pos, List.length_cons]
        omega
      · rw [show runEngine buildRoot τ fails (s0 :: rest) (fs, pr, sk) =
            runEngine buildRoot τ fails rest (fs, pr, sk + 1) from by
          simp [runEngine, hskip, hneed]]
        rw [runEngine_counter_sum buildRoot τ fails rest fs pr (sk + 1)]
        simp only [List.filter_cons, hskip, Bool.not_false, if_pos, List.length_cons]
        omega

/-- C8: a failing artifact write is caught (its file is simply absent) while
every other write of the same source still happens; every non-excluded source
is visited and counted exactly once regardless of failures; a stale source
counts as processed even when all its writes fail; and per-file failures
leave the exit code at 0 whenever the invocation was valid and the source
root exists. -/
theorem C8_fault_isolation (buildRoot : String) (τ : String → Nat)
    (fails : String → Bool) (fs : FS) (src : String) (sources rest : List String)
    (pr sk : Nat) :
    (∀ p ∈ writtenPaths src buildRoot,
      (generateArtifacts fails τ (writtenPaths src buildRoot) fs).mtime p =
        if fails p = true then fs.mtime p else some (τ p)) ∧
    ((runEngine buildRoot τ fails sources (fs, pr, sk)).2.1 +
        (runEngine buildRoot τ fails sources (fs, pr, sk)).2.2 =
      pr + sk + (sources.filter (fun s => !shouldSkipFile s)).length) ∧
    (shouldSkipFile src = false → needsProcessing fs src buildRoot = true →
      pr + 1 ≤ (runEngine buildRoot τ fails (src :: rest) (fs, pr, sk)).2.1) ∧
    (∀ (t : String) (spec : String × String × Option String)
        (enum : String → List String), t ≠ "" → resolveTarget t = some spec →
      fileExists fs spec.1 = true →
      (mainRun fs τ fails (some t) enum).1 = 0) := by
  refine ⟨?_, runEngine_counter_sum buildRoot τ fails sources fs pr sk, ?_, ?_⟩
  · intro p hp
    rw [generateArtifacts_mtime]
    by_cases hf : fails p = true
    · simp [hf]
    · have hf2 : fails p = false := by
        cases hx : fails p
        · rfl
        · exact absurd hx hf
      simp [hf2, hp]
  · intro hskip hneed
    rw [show runEngine buildRoot τ fails (src :: rest) (fs, pr, sk) =
        runEngine buildRoot τ fails rest
          (generateArtifacts fails τ (writtenPaths src buildRoot) fs, pr + 1, sk)
        from by simp [runEngine, hskip, hneed]]
    exact runEngine_processed_mono buildRoot τ fails rest _ (pr + 1) sk
  · rintro t ⟨sp, br, bi⟩ enum hne hres hex
    simp only [mainRun, hres]
    rw [if_neg hne]
    simp [hex]

/-- Witness for C8: with every write failing, a stale source is still counted
as processed and the engine exit code stays 0. -/
theorem C8_fault_isolation_witness :
    0 + 1 ≤ (runEngine "build" tauFive (fun _ => true)
        ["public_html/assets/images/a.png"] (c5Fs, 0, 0)).2.1 ∧
      (mainRun c5Fs tauFive (fun _ => true) (some "public_html/assets/images/a.png")
          (fun _ => ["public_html/assets/images/a.png"])).1 = 0 :=
  ⟨(C8_fault_isolation "build" tauFive (fun _ => true) c5Fs
        "public_html/assets/images/a.png" [] [] 0 0).2.2.1 (by decide) (by decide),
   (C8_fault_isolation "build" tauFive (fun _ => true) c5Fs
        "public_html/assets/images/a.png" [] [] 0 0).2.2.2
      "public_html/assets/images/a.png" ("public_html/assets/images/a.png", "build", none)
      (fun _ => ["public_html/assets/images/a.png"]) (by decide) (by decide) (by decide)⟩

/-! ## Git script entry point (C9) -/

/-- Directory entry tree walked by the git script's `findImages`. -/
inductive Entry where
  | file (name : String)
  | dir (name : String) (entries : List Entry)

/-- File filter of `findImages`: image extensions png/jpg/jpeg, minus the
favicon-family names (exact `safari-pinned-tab.svg` comparison). -/
def gitKeepsFile (name : String) : Bool :=
  (jsEndsWith (lowerStr name) ".png" || jsEndsWith (lowerStr name) ".jpg" ||
      jsEndsWith (lowerStr name) ".jpeg") &&
    !(jsStartsWith name "favicon" || jsStartsWith name "apple-touch-icon" ||
      jsStartsWith name "android-chrome" || jsStartsWith name "mstile" ||
      name == "safari-pinned-tab.svg")

mutual

/-- One entry of the git script's recursive `findImages` walk. -/
def findIn (dirPath : String) : Entry → List String
  | .file name => if gitKeepsFile name then [pathJoin dirPath name] else []
  | .dir name sub => findInList (pathJoin dirPath name) sub

/-- All entries of one directory in the `findImages` walk. -/
def findInList (dirPath : String) : List Entry → List String
  | [] => []
  | e :: es => findIn dirPath e ++ findInList dirPath es

end

/-- `findImages` of the git script; `none` models a missing root directory
(`fs.existsSync` false), for which the scan returns no images instead of
failing. -/
def findImages (dirPath : String) (root : Option (List Entry)) : List String :=
  match root with
  | none => []
  | some entries => findInList dirPath entries

/-- The git script's `processImages` driver: query git, scan the tree, filter
to the images that need processing.  It runs to completion — exit code 0 —
whether or not the source root exists. -/
def processImagesGit (cfg : GitConfig) (fs : FS) (forceAll : Bool)
    (gitOutcome : Except String (List String × List String × List String))
    (root : Option (List Entry)) : Nat × List String :=
  let changedImages := getChangedImages forceAll gitOutcome
  let allImages := findImages cfg.sourceImagesDir root
  let imagesToProcess := allImages.filter
    (needsProcessingGit cfg fs forceAll changedImages)
  (0, imagesToProcess)

/-- C9 (amended): the timestamp-based deploy script aborts with exit code 1
and touches nothing when the resolved source root does not exist, and its
exit code is 0 exactly when the invocation is valid and the source root
exists; the git script instead treats a missing source root as an empty scan
and completes with exit code 0 (see the counterexample). -/
theorem C9_missing_root (fs : FS) (τ : String → Nat) (fails : String → Bool)
    (enum : String → List String) (argv : Option String) :
    (∀ (t : String) (spec : String × String × Option String),
      argv = some t → t ≠ "" → resolveTarget t = some spec →
      fileExists fs spec.1 = false →
      mainRun fs τ fails argv enum = (1, fs, 0, 0)) ∧
    ((mainRun fs τ fails argv enum).1 = 0 ↔
      ∃ (t : String) (spec : String × String × Option String),
        argv = some t ∧ t ≠ "" ∧ resolveTarget t = some spec ∧
          fileExists fs spec.1 = true) := by
  constructor
  · rintro t ⟨sp, br, bi⟩ rfl hne hres hmiss
    simp only [mainRun, hres]
    rw [if_neg hne]
    simp [hmiss]
  · cases argv with
    | none =>
      simp [mainRun]
    | some t =>
      by_cases hne : t = ""
      · subst hne
        simp [mainRun]
      · cases hres : resolveTarget t with
        | none =>
          constructor
          · intro h0
            simp only [mainRun, hres] at h0
            rw [if_neg hne] at h0
            cases h0
          · rintro ⟨t', spec', ht', hne', hres', hex'⟩
            injection ht' with ht2
            subst ht2
            rw [hres] at hres'
            cases hres'
        | some spec =>
          obtain ⟨sp, br, bi⟩ := spec
          by_cases hex : fileExists fs sp = true
          · constructor
            · intro _
              exact ⟨t, (sp, br, bi), rfl, hne, hres, hex⟩
            · intro _
              simp only [mainRun, hres]
              rw [if_neg hne]
              simp [hex]
          · constructor
            · intro h0
              simp only [mainRun, hres] at h0
              rw [if_neg hne] at h0
              simp only [if_neg hex] at h0
              cases h0
            · rintro ⟨t', spec', ht', hne', hres', hex'⟩
              injection ht' with ht2
              subst ht2
              rw [hres] at hres'
              injection hres' with h2
              subst h2
              exact absurd hex' hex

/-- C9 counterexample: given a missing source root, the git script's scan
returns no images and its run completes with exit code 0 — it does not abort
with a non-zero exit. -/
theorem C9_missing_root_cex :
    findImages "/w/public_html/assets/images" none = [] ∧
      processImagesGit c2Cfg c2Fs false (.ok ([], [], [])) none = (0, []) := by
  exact ⟨rfl, rfl⟩

/-- Filesystem in which nothing exists. -/
def fsEmpty : FS := ⟨fun _ => none⟩

/-- Witness for C9: the deploy script aborts with exit 1 and no processing
when the source root is absent. -/
theorem C9_missing_root_witness :
    mainRun fsEmpty tauFive noFail (some "public_html/assets/images")
        (fun _ => []) = (1, fsEmpty, 0, 0) :=
  (C9_missing_root fsEmpty tauFive noFail (fun _ => [])
      (some "public_html/assets/images")).1 "public_html/assets/images"
    ("public_html/assets/images", "build", none) rfl (by decide) (by decide) (by decide)

end PortfolioBuild
